import Mathlib

/-!
# Verification of the 2602_money trading core

A shallow embedding, over `ℚ`, of the parts of the scanner/trader code base
that the specification's testable properties talk about:

* the weight store (`src/scoring/weights.py`, `src/core/db.py`),
* the paper-trading simulator (`src/paper/simulator.py`),
* the live executor's sell rule and risk overlay (`src/live/executor.py`),
* the weight tuner (`src/feedback/weight_tuner.py`),
* outcome attribution (`src/feedback/outcomes.py`),
* the score engine (`src/scoring/score_engine.py`, `src/scoring/schema.py`).

Python floats are embedded as rationals, Python ints as `ℤ`/`ℕ`, and
fallible/stateful code as explicit state passing with effect traces.
-/

namespace MoneyBot

/-- Clamp helper mirroring `_clamp(x, lo, hi) = max(lo, min(hi, x))`
in `src/live/executor.py`. -/
def clampQ (x lo hi : ℚ) : ℚ := max lo (min hi x)

/-! ## Market rows and positions

A row of the per-cycle market-state / ranked-entries tables as consumed by the
sell and entry rules.  A column absent from the table is read through
`row.get(key, 0.0)` (simulator) or `_safe_float(row.get(key))` (executor),
both of which yield `0.0`; a missing value is represented here by the field
holding `0`. -/
structure MarketRow where
  ticker : String
  name : String
  price : ℚ
  return1h : ℚ
  drawdown20 : ℚ
  flowScore : ℚ
  score : ℚ
deriving Repr, DecidableEq

/-- An open paper position, one row of `paper_positions`
(`_load_positions` in `src/paper/simulator.py`). -/
structure PaperPos where
  name : String
  qty : ℤ
  avgPrice : ℚ
deriving Repr, DecidableEq

/-- A broker-reported live position as carried in the balance snapshot
(`sync_live_snapshot` in `src/live/executor.py`). -/
structure LivePos where
  ticker : String
  name : String
  qty : ℤ
  avgPrice : ℚ
  lastPrice : ℚ
  evalAmount : ℚ
  pnlAmount : ℚ
  pnlPct : ℚ
deriving Repr, DecidableEq

/-! ## Sell rules -/

/-- `_sell_rule` of `src/paper/simulator.py`: stop-loss at 1-bar return
≤ −3.5%, take-profit at ≥ +6%, trend-break at 20-bar drawdown < −9%. -/
def simSellRule (row : MarketRow) : Bool × String :=
  if row.return1h ≤ (-0.035 : ℚ) then (true, "stop-loss")
  else if (0.06 : ℚ) ≤ row.return1h then (true, "take-profit")
  else if row.drawdown20 < (-0.09 : ℚ) then (true, "trend-break")
  else (false, "")

/-- `_sell_rule` of `src/live/executor.py`: hard stop on position pnl ≤ −8%,
stop-loss on 1-bar return ≤ −3.5%, drawdown break at < −10%, flow reversal,
and take-profit fade conditions. -/
def liveSellRule (row : MarketRow) (pos : LivePos) : Bool × String :=
  if pos.pnlPct ≤ (-0.08 : ℚ) then (true, "hard_stop_pnl")
  else if row.return1h ≤ (-0.035 : ℚ) then (true, "stop_loss_1h")
  else if row.drawdown20 < (-0.10 : ℚ) then (true, "drawdown_break")
  else if row.flowScore < (-0.6 : ℚ) ∧ row.score < (45 : ℚ) then (true, "flow_reversal")
  else if ((0.07 : ℚ) ≤ row.return1h ∧ row.flowScore < 0)
          ∨ ((0.12 : ℚ) ≤ pos.pnlPct ∧ row.flowScore < (0.2 : ℚ)) then (true, "take_profit_fade")
  else (false, "")

/-! ## Weight store

The `weights` table (`src/core/db.py` schema): append-only versioned rows,
`active` flag marking the single live vector. -/

structure WeightRow where
  version : ℕ
  weights : List (String × ℚ)
  active : Bool
deriving Repr, DecidableEq

abbrev WeightsTable := List WeightRow

/-- `UPDATE weights SET active=0 WHERE active=1`. -/
def deactivateAll (t : WeightsTable) : WeightsTable :=
  t.map (fun r => { r with active := false })

/-- `INSERT INTO weights(ts_kst, weights_json, active) VALUES (?,?,1)` with the
autoincremented version key. -/
def insertActive (t : WeightsTable) (w : List (String × ℚ)) : WeightsTable :=
  t ++ [⟨(t.map (·.version)).foldl max 0 + 1, w, true⟩]

/-- `activate_new_weights` (`src/scoring/weights.py`) issues the deactivating
`UPDATE` and the `INSERT` as two separate `db.execute` calls; `execute`
(`src/core/db.py`) opens a fresh sqlite connection and commits before
returning, so each statement is its own transaction.  `insertFails = true`
models the second statement raising after the first has already committed:
the deactivation is durable, the insert never happens. -/
def activate_new_weights (insertFails : Bool) (t : WeightsTable)
    (w : List (String × ℚ)) : WeightsTable :=
  let t1 := deactivateAll t
  if insertFails then t1 else insertActive t1 w

/-- Rows visible to a subsequent `load_active_weights`-style read
(`WHERE active=1`). -/
def activeRows (t : WeightsTable) : List WeightRow := t.filter (·.active)

/-! ## Live risk overlay

`_build_risk_overlay` in `src/live/executor.py`.  The settings fields it
reads, and the two DB-derived inputs `day_return` (`_live_day_return`) and
`account_drawdown` (`_live_account_drawdown`), are passed explicitly. -/

/-- The `Settings` fields consumed by the risk overlay. -/
structure LiveRiskSettings where
  liveRiskOffDayLossPct : ℚ
  liveRiskOffDrawdownPct : ℚ
  liveRiskOnDayGainPct : ℚ
  liveCashReservePct : ℚ
deriving Repr, DecidableEq

/-- Today's order fail rate: `failed / total` when any orders exist, else 0. -/
def failRateOf (failedN totalN : ℕ) : ℚ :=
  if 0 < totalN then (failedN : ℚ) / (totalN : ℚ) else 0

/-- Cash-to-total-asset ratio, 0 when total asset is non-positive. -/
def cashRatioOf (cash totalAsset : ℚ) : ℚ :=
  if 0 < totalAsset then cash / totalAsset else 0

/-- Result record of `_build_risk_overlay`. -/
structure RiskOverlay where
  mode : String
  effectiveThreshold : ℚ
  orderScale : ℚ
  positionScale : ℚ
  reservePct : ℚ
  dayReturn : ℚ
  accountDrawdown : ℚ
  cashRatio : ℚ
  unrealizedRet : ℚ
  failRateToday : ℚ
deriving Repr, DecidableEq

/-- `_build_risk_overlay` (`src/live/executor.py`): defensive / offensive mode
selection plus the fail-rate and cash-ratio penalties, followed by the final
clamps. -/
def buildRiskOverlay (settings : LiveRiskSettings) (baseThreshold : ℚ)
    (positions : List LivePos) (totalAsset cash totalEval : ℚ)
    (dayReturn accountDrawdown : ℚ) (failedN totalN : ℕ) : RiskOverlay :=
  let unrealizedPnl := (positions.map (·.pnlAmount)).sum
  let unrealizedRet := if 0 < totalEval then unrealizedPnl / totalEval else 0
  let failRate := failRateOf failedN totalN
  let cashRatio := cashRatioOf cash totalAsset
  let riskOff :=
    dayReturn ≤ -|settings.liveRiskOffDayLossPct|
      ∨ |settings.liveRiskOffDrawdownPct| ≤ accountDrawdown
      ∨ unrealizedRet ≤ (-0.05 : ℚ)
  let st1 : String × ℚ × ℚ × ℚ × ℚ :=
    if riskOff then ("defensive", 5, 0.55, 0.70, 0.05)
    else if |settings.liveRiskOnDayGainPct| ≤ dayReturn
            ∧ failRate < (0.3 : ℚ) ∧ (-0.01 : ℚ) < unrealizedRet then
      ("offensive", -1, 1.10, 1.10, 0)
    else ("normal", 0, 1, 1, 0)
  let mode1 := st1.1
  let tAdd1 := st1.2.1
  let oScale1 := st1.2.2.1
  let pScale := st1.2.2.2.1
  let rAdd1 := st1.2.2.2.2
  let st2 : String × ℚ × ℚ × ℚ :=
    if 3 ≤ totalN ∧ (0.60 : ℚ) ≤ failRate then
      ("defensive", tAdd1 + 2, oScale1 * 0.75, rAdd1 + 0.03)
    else (mode1, tAdd1, oScale1, rAdd1)
  let mode2 := st2.1
  let tAdd2 := st2.2.1
  let oScale2 := st2.2.2.1
  let rAdd2 := st2.2.2.2
  let st3 : ℚ × ℚ × ℚ :=
    if cashRatio < settings.liveCashReservePct * (0.70 : ℚ) then
      (tAdd2 + 2, oScale2 * 0.70, rAdd2 + 0.02)
    else (tAdd2, oScale2, rAdd2)
  { mode := mode2
    effectiveThreshold := clampQ (baseThreshold + st3.1) 40 95
    orderScale := clampQ st3.2.1 0.35 1.30
    positionScale := clampQ pScale 0.50 1.20
    reservePct := clampQ (settings.liveCashReservePct + st3.2.2) 0 0.80
    dayReturn := dayReturn
    accountDrawdown := accountDrawdown
    cashRatio := cashRatio
    unrealizedRet := unrealizedRet
    failRateToday := failRate }

/-! ## Weight tuner

`tune_weights` in `src/feedback/weight_tuner.py`. -/

/-- `delta = max(-max_delta, min(max_delta, signal * 0.012))`. -/
def tunerDelta (maxDelta signal : ℚ) : ℚ :=
  max (-maxDelta) (min maxDelta (signal * (0.012 : ℚ)))

/-- The per-key update loop of `tune_weights`: a key whose feature column
fails the screen (absent or non-numeric column, fewer than 30 non-null
samples, fewer than 5 distinct values) is skipped and keeps its base weight;
otherwise the blended `0.7*ic + 0.3*spread_signal` value is turned into a
clamped additive delta and the updated weight floored at 0.  The blended
signal per key is data the run is conditioned on, so it enters as the
parameter `sig` (`none` = key skipped); clamp and floor are the code's. -/
def updatedWeights (base : List (String × ℚ)) (sig : String → Option ℚ)
    (maxDelta : ℚ) : List (String × ℚ) :=
  base.map fun kv =>
    match sig kv.1 with
    | none => kv
    | some s => (kv.1, max 0 (kv.2 + tunerDelta maxDelta s))

/-- Result of a tuner run: the returned vector, the status string, and
whether `activate_new_weights` was called. -/
structure TuneResult where
  weights : List (String × ℚ)
  status : String
  activated : Bool
deriving Repr, DecidableEq

/-- `tune_weights`: warmup-day gate, sample-size gate, the degenerate
empty-join `OFF(no-ret)` case, the update loop, the non-positive-sum abort,
and renormalization + activation on success.  `nDays` is the distinct-day
count of the 1d-outcome warmup query and `nSamples` the joined
candidate/outcome row count. -/
def tune_weights (nDays nSamples : ℕ) (base : List (String × ℚ))
    (sig : String → Option ℚ) (maxDelta : ℚ) (minSamples warmupDays : ℕ) :
    TuneResult :=
  if nDays < warmupDays then
    ⟨base, "OFF(warmup<" ++ toString warmupDays ++ "d)", false⟩
  else if nSamples < minSamples then
    ⟨base, "OFF(sample<" ++ toString minSamples ++ ")", false⟩
  else if nSamples = 0 then
    ⟨base, "OFF(no-ret)", false⟩
  else if ((updatedWeights base sig maxDelta).map (·.2)).sum ≤ 0 then
    ⟨base, "OFF(invalid-sum)", false⟩
  else
    ⟨(updatedWeights base sig maxDelta).map
        (fun kv => (kv.1, kv.2 / ((updatedWeights base sig maxDelta).map (·.2)).sum)),
      "ON", true⟩

/-! ## Score engine

`score_candidates` in `src/scoring/score_engine.py` with the scale map of
`src/scoring/schema.py`.  A feature table is a list of rows; a row maps a
column name to its value, `none` meaning the column is absent from the
table.  A weight mapping is read through `weights.get(key, 0.0)`, so it is
embedded as a total function. -/

/-- `SCORE_SCALE_MAP` of `src/scoring/schema.py`:
raw feature → (lo, hi, normalized key). -/
def SCORE_SCALE_MAP : List (String × ℚ × ℚ × String) :=
  [("money_value_surge", 0.8, 3.0, "f_money"),
   ("flow_score", -1.0, 1.0, "f_flow"),
   ("atr_regime", 0.7, 1.8, "f_atr"),
   ("sector_breadth", 0.2, 0.9, "f_sector"),
   ("sector_rotation", -0.15, 0.35, "f_rotation"),
   ("buzz_score", 0.0, 1.0, "f_buzz"),
   ("rs_5", -0.05, 0.12, "f_rs"),
   ("momentum_persistence", 0.2, 0.9, "f_persist"),
   ("drawdown_20", -0.18, 0.0, "f_drawdown"),
   ("volatility_shock", 0.7, 1.6, "f_volshock"),
   ("trend_strength", -0.03, 0.08, "f_trend"),
   ("breakout_20", -0.05, 0.06, "f_breakout"),
   ("range_position_20", 0.2, 1.0, "f_rangepos"),
   ("efficiency_8", 0.1, 0.85, "f_efficiency")]

/-- `_clip_scale`: 0 when the range is empty, else `(value-lo)/(hi-lo)`
clipped to [0,1]. -/
def clipScale (value lo hi : ℚ) : ℚ :=
  if hi ≤ lo then 0 else clampQ ((value - lo) / (hi - lo)) 0 1

/-- Round half to even to an integer — the rounding mode of numpy/pandas
`.round`, which the score column goes through. -/
def roundHalfEven (q : ℚ) : ℤ :=
  if q - ⌊q⌋ < 1/2 then ⌊q⌋
  else if (1 : ℚ)/2 < q - ⌊q⌋ then ⌊q⌋ + 1
  else if Even ⌊q⌋ then ⌊q⌋ else ⌊q⌋ + 1

/-- `.round(2)`: round half to even at two decimal places. -/
def round2 (q : ℚ) : ℚ := (roundHalfEven (q * 100) : ℚ) / 100

/-- The normalized value of one feature of a row: absent column → 0.0,
else `_clip_scale` of the raw value. -/
def normFeature (r : String → Option ℚ) (key : String) (lo hi : ℚ) : ℚ :=
  match r key with
  | none => 0
  | some x => clipScale x lo hi

/-- The weighted sum `Σ weights.get(raw_key, 0.0) × normalized[raw_key]`
over the scale map. -/
def rawScore (w : String → ℚ) (r : String → Option ℚ) : ℚ :=
  (SCORE_SCALE_MAP.map (fun e => w e.1 * normFeature r e.1 e.2.1 e.2.2.1)).sum

/-- The per-row score: `(raw * 100.0).round(2)`. -/
def scoreRow (w : String → ℚ) (r : String → Option ℚ) : ℚ :=
  round2 (rawScore w r * 100)

/-- Insertion step of a descending sort on the score column. -/
def insertDesc {α : Type} (x : α × ℚ) : List (α × ℚ) → List (α × ℚ)
  | [] => [x]
  | y :: ys => if y.2 ≤ x.2 then x :: y :: ys else y :: insertDesc x ys

/-- Descending sort on the score column (`sort_values("score",
ascending=False)`; the sort algorithm is unspecified up to permutation). -/
def sortDesc {α : Type} : List (α × ℚ) → List (α × ℚ)
  | [] => []
  | x :: xs => insertDesc x (sortDesc xs)

/-- `score_candidates`: attach the score to every row, sort descending. -/
def score_candidates (w : String → ℚ) (rows : List (String → Option ℚ)) :
    List ((String → Option ℚ) × ℚ) :=
  sortDesc (rows.map (fun r => (r, scoreRow w r)))

/-! ## Paper trading simulator

`run_paper_trading` in `src/paper/simulator.py`, embedded as a pure function
of the data its DB reads return (today's order count, latest account cash,
loaded positions) producing the written rows as an effect trace.

Conventions: the `paper_orders` reason f-string `f"{reason}|fee={fee:.2f}"`
is carried as the pair (`reasonTag`, `fee`) — the decimal rendering of the
fee is elided; dict iteration order is list order (Python dicts preserve
insertion order, `paper_positions.ticker` is a primary key); `int(a // b)`
on floats is `⌊a / b⌋`, with the caveat that Python raises on a zero
denominator where `ℚ` division yields 0 and the candidate is skipped — a
run never reaches that state with positive prices. -/

/-- One row appended to `paper_orders`. -/
structure PaperOrder where
  ts : String
  side : String
  ticker : String
  name : String
  qty : ℤ
  price : ℚ
  reasonTag : String
  fee : ℚ
  runId : ℤ
deriving Repr, DecidableEq

/-- One row appended to `paper_accounts`. -/
structure AccountRow where
  ts : String
  cash : ℚ
  nav : ℚ
  note : String
deriving Repr, DecidableEq

/-- A committed write of the simulator: the `executemany` into
`paper_orders` (skipped when no orders), the full-table replace of
`paper_positions`, the insert into `paper_accounts`. -/
inductive DbWrite where
  | insertOrders (orders : List PaperOrder)
  | replacePositions (rows : List (String × PaperPos))
  | insertAccount (row : AccountRow)
deriving Repr, DecidableEq

/-- Whether a write is the `paper_accounts` insert. -/
def isInsertAccount : DbWrite → Bool
  | .insertAccount _ => true
  | _ => false

/-- `market_by_ticker` lookup: a Python dict comprehension keeps the last
row per ticker. -/
def lookupLast (mkt : List MarketRow) (t : String) : Option MarketRow :=
  (mkt.filter (fun r => r.ticker = t)).getLast?

/-- `price_map.get(t)`: the market-state price dict unioned with the
fallback map, the fallback winning (`{...} | fallback_price_map`). -/
def priceMapGet (mkt : List MarketRow) (fallback : List (String × ℚ))
    (t : String) : Option ℚ :=
  match fallback.lookup t with
  | some p => some p
  | none => (lookupLast mkt t).map (·.price)

/-- `_mark_to_market`: cash plus every held position at the price-map price,
falling back to the position's own average cost. -/
def markToMarket (cash : ℚ) (positions : List (String × PaperPos))
    (priceOf : String → Option ℚ) : ℚ :=
  cash + (positions.map (fun tp =>
    (match priceOf tp.1 with
     | some p => p
     | none => tp.2.avgPrice) * (tp.2.qty : ℚ))).sum

/-- The cash the cycle starts from: the latest `paper_accounts` cash,
re-seeded with `initial_cash` when it is non-positive and no order was
logged today. -/
def startCash (latestCash initialCash : ℚ) (tradesToday : ℕ) : ℚ :=
  if latestCash ≤ 0 ∧ tradesToday = 0 then initialCash else latestCash

/-- State threaded through the exit pass. -/
structure ExitState where
  cash : ℚ
  kept : List (String × PaperPos)
  orders : List PaperOrder
  budget : ℕ
deriving Repr, DecidableEq

/-- One iteration of the exit pass over a held position: skip when the
budget is exhausted, the ticker has no market row, the sell rule does not
fire, or the stored qty is non-positive; otherwise sell everything at the
slippage-adjusted price, deduct the fee from the proceeds, log the order,
drop the position, and consume one budget unit. -/
def exitStep (mkt : List MarketRow) (feeBps slipBps : ℚ) (ts : String)
    (runId : ℤ) (st : ExitState) (tp : String × PaperPos) : ExitState :=
  if st.budget = 0 then { st with kept := st.kept ++ [tp] }
  else
    match lookupLast mkt tp.1 with
    | none => { st with kept := st.kept ++ [tp] }
    | some row =>
      if (simSellRule row).1 = true then
        if tp.2.qty ≤ 0 then { st with kept := st.kept ++ [tp] }
        else
          { cash := st.cash + ((tp.2.qty : ℚ) * (row.price * (1 - slipBps / 10000))
              - (tp.2.qty : ℚ) * (row.price * (1 - slipBps / 10000)) * feeBps / 10000)
            kept := st.kept
            orders := st.orders ++ [⟨ts, "SELL", tp.1, row.name, tp.2.qty,
              row.price * (1 - slipBps / 10000), (simSellRule row).2,
              (tp.2.qty : ℚ) * (row.price * (1 - slipBps / 10000)) * feeBps / 10000, runId⟩]
            budget := st.budget - 1 }
      else { st with kept := st.kept ++ [tp] }

/-- The exit pass: fold over the snapshot of held positions. -/
def exitPass (mkt : List MarketRow) (feeBps slipBps : ℚ) (ts : String)
    (runId : ℤ) (cash : ℚ) (budget : ℕ)
    (positions : List (String × PaperPos)) : ExitState :=
  positions.foldl (exitStep mkt feeBps slipBps ts runId) ⟨cash, [], [], budget⟩

/-- State threaded through the entry pass. -/
structure EntryState where
  cash : ℚ
  positions : List (String × PaperPos)
  orders : List PaperOrder
  slots : ℕ
  budget : ℕ
deriving Repr, DecidableEq

/-- One candidate of the entry pass: skip when already held, below the
entry threshold, the affordable integer qty at the initial per-slot
allocation is non-positive, or the total cost (incl. fee) exceeds cash;
otherwise buy, log, consume one slot and one budget unit. -/
def buyStep (allocation feeBps slipBps threshold : ℚ) (ts : String)
    (runId : ℤ) (st : EntryState) (row : MarketRow) : EntryState :=
  if st.positions.any (fun tp => tp.1 == row.ticker) then st
  else if row.score < threshold then st
  else if ⌊allocation / (row.price * (1 + slipBps / 10000))⌋ ≤ 0 then st
  else if st.cash <
      (⌊allocation / (row.price * (1 + slipBps / 10000))⌋ : ℚ)
          * (row.price * (1 + slipBps / 10000))
        + (⌊allocation / (row.price * (1 + slipBps / 10000))⌋ : ℚ)
          * (row.price * (1 + slipBps / 10000)) * feeBps / 10000 then st
  else
    { cash := st.cash -
        ((⌊allocation / (row.price * (1 + slipBps / 10000))⌋ : ℚ)
            * (row.price * (1 + slipBps / 10000))
          + (⌊allocation / (row.price * (1 + slipBps / 10000))⌋ : ℚ)
            * (row.price * (1 + slipBps / 10000)) * feeBps / 10000)
      positions := st.positions ++ [(row.ticker,
        ⟨row.name, ⌊allocation / (row.price * (1 + slipBps / 10000))⌋,
          row.price * (1 + slipBps / 10000)⟩)]
      orders := st.orders ++ [⟨ts, "BUY", row.ticker, row.name,
        ⌊allocation / (row.price * (1 + slipBps / 10000))⌋,
        row.price * (1 + slipBps / 10000), "top-score-entry",
        (⌊allocation / (row.price * (1 + slipBps / 10000))⌋ : ℚ)
          * (row.price * (1 + slipBps / 10000)) * feeBps / 10000, runId⟩]
      slots := st.slots - 1
      budget := st.budget - 1 }

/-- The ranked-candidate loop of the entry pass, with its break condition. -/
def entryLoop (allocation feeBps slipBps threshold : ℚ) (ts : String)
    (runId : ℤ) : EntryState → List MarketRow → EntryState
  | st, [] => st
  | st, row :: rest =>
    if st.slots = 0 ∨ st.budget = 0 then st
    else entryLoop allocation feeBps slipBps threshold ts runId
      (buyStep allocation feeBps slipBps threshold ts runId st row) rest

/-- The entry pass: compute free slots, the fixed per-slot cash allocation,
then iterate the ranked candidates. -/
def entryPass (maxPositions : ℤ) (threshold feeBps slipBps : ℚ) (ts : String)
    (runId : ℤ) (ranked : List MarketRow) (ex : ExitState) : EntryState :=
  let slots : ℕ := (maxPositions - (ex.kept.length : ℤ)).toNat
  if 0 < slots ∧ 0 < ex.budget then
    entryLoop (ex.cash / ((max 1 (min slots ex.budget) : ℕ) : ℚ))
      feeBps slipBps threshold ts runId
      ⟨ex.cash, ex.kept, ex.orders, slots, ex.budget⟩ ranked
  else ⟨ex.cash, ex.kept, ex.orders, slots, ex.budget⟩

/-- Result of one paper-trading cycle: the returned summary fields and the
trace of committed writes, in commit order. -/
structure SimResult where
  ordersCount : ℕ
  cash : ℚ
  nav : ℚ
  writes : List DbWrite
deriving Repr, DecidableEq

/-- `run_paper_trading`: budget check, exit pass, entry pass, persistence.
`tradesToday` is `_daily_order_count`, `latestCash` the latest
`paper_accounts` cash, `positions0` the loaded `paper_positions` rows. -/
def run_paper_trading (runId : ℤ) (ts : String)
    (rankedEntries marketState : List MarketRow)
    (fallback : List (String × ℚ)) (latestCash initialCash : ℚ)
    (tradesToday : ℕ) (maxTradesPerDay maxPositions : ℤ)
    (entryScoreThreshold feeBps slipBps : ℚ)
    (positions0 : List (String × PaperPos)) : SimResult :=
  let budget0 : ℕ := (maxTradesPerDay - (tradesToday : ℤ)).toNat
  let cash0 := startCash latestCash initialCash tradesToday
  let priceOf := priceMapGet marketState fallback
  if budget0 = 0 then
    { ordersCount := 0
      cash := cash0
      nav := markToMarket cash0 positions0 priceOf
      writes := [.insertAccount ⟨ts, cash0, markToMarket cash0 positions0 priceOf,
        "paper-run:" ++ toString runId ++ ":limit-reached"⟩] }
  else
    let en := entryPass maxPositions entryScoreThreshold feeBps slipBps ts runId
      rankedEntries (exitPass marketState feeBps slipBps ts runId cash0 budget0 positions0)
    { ordersCount := en.orders.length
      cash := en.cash
      nav := markToMarket en.cash en.positions priceOf
      writes :=
        (if en.orders = [] then [] else [.insertOrders en.orders])
          ++ [.replacePositions (en.positions.filter (fun tp => 0 < tp.2.qty)),
              .insertAccount ⟨ts, en.cash, markToMarket en.cash en.positions priceOf,
                "paper-run:" ++ toString runId⟩] }

/-! ## Outcome attribution

`fill_outcomes` in `src/feedback/outcomes.py`, embedded over the data its
queries return.  A `CandRow` is one row of the `runs JOIN candidates` query;
the wall-clock eligibility test `_eligible` and the `_later_snapshot_price`
query at `run_ts + horizon` are functions of the row and horizon that do not
change between two back-to-back calls (the claim's "unchanged underlying
data"), so they are carried in an environment record; the `outcomes` table is
the threaded state, with `INSERT OR REPLACE` as delete-conflicting-then-append. -/

/-- Primary key of the `outcomes` table. -/
structure OutcomeKey where
  runId : ℤ
  ticker : String
  horizon : String
deriving Repr, DecidableEq

/-- Value columns of an `outcomes` row. -/
structure OutcomeVal where
  ret : ℚ
  priceThen : ℚ
  priceLater : ℚ
deriving Repr, DecidableEq

/-- One row of the `runs JOIN candidates` query. -/
structure CandRow where
  runId : ℤ
  tsKst : String
  ticker : String
  price : ℚ
deriving Repr, DecidableEq

/-- The unchanged-between-calls environment: eligibility per horizon, the
earliest later price snapshot per horizon, the caller's fallback latest
price map. -/
structure OutcomeEnv where
  elig : CandRow → String → Bool
  snapPrice : CandRow → String → Option ℚ
  fallback : List (String × ℚ)

/-- The key written for a row and horizon. -/
def okey (r : CandRow) (h : String) : OutcomeKey := ⟨r.runId, r.ticker, h⟩

/-- The outcome-row read (`SELECT ... WHERE run_id=? AND ticker=? AND
horizon=?`). -/
def outcomesGet (t : List (OutcomeKey × OutcomeVal)) (k : OutcomeKey) :
    Option OutcomeVal :=
  (t.find? (fun kv => kv.1 = k)).map (·.2)

/-- `INSERT OR REPLACE INTO outcomes`: drop any conflicting row, append the
new one. -/
def outcomesUpsert (t : List (OutcomeKey × OutcomeVal)) (k : OutcomeKey)
    (v : OutcomeVal) : List (OutcomeKey × OutcomeVal) :=
  t.filter (fun kv => ¬ kv.1 = k) ++ [(k, v)]

/-- The later price: earliest snapshot at or after `run_ts + horizon`, else
the fallback latest-price map, else unresolvable. -/
def resolveLater (env : OutcomeEnv) (r : CandRow) (h : String) : Option ℚ :=
  match env.snapPrice r h with
  | some p => some p
  | none => env.fallback.lookup r.ticker

/-- The materiality tolerance of the upsert guard. -/
def outcomeEps : ℚ := 1e-12

/-- The outcome value the loop computes for a row and horizon (`none` when
the horizon is not yet eligible or no later price resolves). -/
def computedVal (env : OutcomeEnv) (r : CandRow) (h : String) :
    Option OutcomeVal :=
  if env.elig r h then
    match resolveLater env r h with
    | none => none
    | some later => some ⟨later / r.price - 1, r.price, later⟩
  else none

/-- The loop body for one row and one horizon: skip when nothing to record
or when the stored record is materially identical (all three deltas below
1e-12); otherwise upsert and count one write. -/
def fillStep (env : OutcomeEnv) (r : CandRow) (h : String)
    (st : List (OutcomeKey × OutcomeVal) × ℕ) :
    List (OutcomeKey × OutcomeVal) × ℕ :=
  match computedVal env r h with
  | none => st
  | some v =>
    match outcomesGet st.1 (okey r h) with
    | some prev =>
      if |prev.ret - v.ret| < outcomeEps ∧ |prev.priceThen - v.priceThen| < outcomeEps
          ∧ |prev.priceLater - v.priceLater| < outcomeEps then st
      else (outcomesUpsert st.1 (okey r h) v, st.2 + 1)
    | none => (outcomesUpsert st.1 (okey r h) v, st.2 + 1)

/-- One row of the outer loop: rows with non-positive stored price are
skipped whole, else the three horizons are processed in order. -/
def fillRow (env : OutcomeEnv) (st : List (OutcomeKey × OutcomeVal) × ℕ)
    (r : CandRow) : List (OutcomeKey × OutcomeVal) × ℕ :=
  if r.price ≤ 0 then st
  else ["1h", "4h", "1d"].foldl (fun s h => fillStep env r h s) st

/-- `fill_outcomes`: fold the joined rows over the outcomes table, returning
the new table and the number of upserts performed. -/
def fill_outcomes (env : OutcomeEnv) (rows : List CandRow)
    (outcomes0 : List (OutcomeKey × OutcomeVal)) :
    List (OutcomeKey × OutcomeVal) × ℕ :=
  rows.foldl (fillRow env) (outcomes0, 0)

end MoneyBot

namespace MoneyBot

/-! ## Helper lemmas -/

/-- `insertDesc` permutes consing. -/
theorem insertDesc_perm {α : Type} (x : α × ℚ) (l : List (α × ℚ)) :
    (insertDesc x l).Perm (x :: l) := by
  induction l with
  | nil => exact List.Perm.refl _
  | cons y ys ih =>
    unfold insertDesc
    split_ifs
    · exact List.Perm.refl _
    · exact (ih.cons y).trans (List.Perm.swap x y ys)

/-- `sortDesc` permutes its input. -/
theorem sortDesc_perm {α : Type} (l : List (α × ℚ)) : (sortDesc l).Perm l := by
  induction l with
  | nil => exact List.Perm.refl _
  | cons x xs ih => exact (insertDesc_perm x (sortDesc xs)).trans (ih.cons x)

/-- `roundHalfEven` is bounded below by the floor. -/
theorem roundHalfEven_ge (q : ℚ) : ⌊q⌋ ≤ roundHalfEven q := by
  unfold roundHalfEven
  split_ifs <;> omega

/-- `roundHalfEven` is bounded above by the floor plus one. -/
theorem roundHalfEven_le (q : ℚ) : roundHalfEven q ≤ ⌊q⌋ + 1 := by
  unfold roundHalfEven
  split_ifs <;> omega

/-- `roundHalfEven` is monotone. -/
theorem roundHalfEven_mono {x y : ℚ} (h : x ≤ y) :
    roundHalfEven x ≤ roundHalfEven y := by
  have hf : ⌊x⌋ ≤ ⌊y⌋ := Int.floor_le_floor h
  rcases lt_or_eq_of_le hf with hlt | heq
  · calc roundHalfEven x ≤ ⌊x⌋ + 1 := roundHalfEven_le x
      _ ≤ ⌊y⌋ := by omega
      _ ≤ roundHalfEven y := roundHalfEven_ge y
  · have hfr : x - ⌊x⌋ ≤ y - ⌊y⌋ := by
      rw [← heq]; linarith
    unfold roundHalfEven
    rw [← heq]
    split_ifs <;> first | omega | linarith

/-- `round2` is monotone. -/
theorem round2_mono {x y : ℚ} (h : x ≤ y) : round2 x ≤ round2 y := by
  unfold round2
  have := roundHalfEven_mono (mul_le_mul_of_nonneg_right h (by norm_num : (0:ℚ) ≤ 100))
  have hc : ((roundHalfEven (x * 100) : ℚ)) ≤ ((roundHalfEven (y * 100) : ℚ)) := by
    exact_mod_cast this
  linarith

/-- `clipScale` is monotone in the value. -/
theorem clipScale_mono {x y : ℚ} (lo hi : ℚ) (h : x ≤ y) :
    clipScale x lo hi ≤ clipScale y lo hi := by
  unfold clipScale
  split_ifs with hle
  · exact le_refl 0
  · have hpos : 0 < hi - lo := by linarith [lt_of_not_le hle]
    have hdiv : (x - lo) / (hi - lo) ≤ (y - lo) / (hi - lo) :=
      (div_le_div_iff_of_pos_right hpos).mpr (by linarith)
    unfold clampQ
    exact max_le_max (le_refl 0) (min_le_min (le_refl 1) hdiv)

/-- A status string of the form `a ++ t ++ b` with `a` longer than "ON"
is never "ON". -/
theorem status_ne_on (a t b : String) (ha : 2 < a.length) : a ++ t ++ b ≠ "ON" := by
  intro h
  have hl := congrArg String.length h
  rw [String.length_append, String.length_append] at hl
  have h2 : ("ON" : String).length = 2 := rfl
  omega

/-- Each exit-pass step preserves `orders.length + budget`. -/
theorem exitStep_sum (mkt : List MarketRow) (feeBps slipBps : ℚ) (ts : String)
    (runId : ℤ) (st : ExitState) (tp : String × PaperPos) :
    (exitStep mkt feeBps slipBps ts runId st tp).orders.length
      + (exitStep mkt feeBps slipBps ts runId st tp).budget
    = st.orders.length + st.budget := by
  unfold exitStep
  repeat' split
  all_goals simp_all [List.length_append]
  all_goals omega

/-- The exit pass preserves `orders.length + budget` over any position list. -/
theorem exitFold_sum (mkt : List MarketRow) (feeBps slipBps : ℚ) (ts : String)
    (runId : ℤ) (l : List (String × PaperPos)) (st : ExitState) :
    (l.foldl (exitStep mkt feeBps slipBps ts runId) st).orders.length
      + (l.foldl (exitStep mkt feeBps slipBps ts runId) st).budget
    = st.orders.length + st.budget := by
  induction l generalizing st with
  | nil => rfl
  | cons tp rest ih =>
    rw [List.foldl_cons, ih, exitStep_sum]

/-- A buy step taken with budget left preserves `orders.length + budget`. -/
theorem buyStep_sum (allocation feeBps slipBps threshold : ℚ) (ts : String)
    (runId : ℤ) (st : EntryState) (row : MarketRow) (h : st.budget ≠ 0) :
    (buyStep allocation feeBps slipBps threshold ts runId st row).orders.length
      + (buyStep allocation feeBps slipBps threshold ts runId st row).budget
    = st.orders.length + st.budget := by
  unfold buyStep
  repeat' split
  all_goals simp_all [List.length_append]
  all_goals omega

/-- The entry loop preserves `orders.length + budget`. -/
theorem entryLoop_sum (allocation feeBps slipBps threshold : ℚ) (ts : String)
    (runId : ℤ) (l : List MarketRow) (st : EntryState) :
    (entryLoop allocation feeBps slipBps threshold ts runId st l).orders.length
      + (entryLoop allocation feeBps slipBps threshold ts runId st l).budget
    = st.orders.length + st.budget := by
  induction l generalizing st with
  | nil => rfl
  | cons row rest ih =>
    unfold entryLoop
    split_ifs with h
    · rfl
    · rw [ih, buyStep_sum]
      intro hb
      exact h (Or.inr hb)

/-- The entry pass preserves `orders.length + budget`. -/
theorem entryPass_sum (maxPositions : ℤ) (threshold feeBps slipBps : ℚ)
    (ts : String) (runId : ℤ) (ranked : List MarketRow) (ex : ExitState) :
    (entryPass maxPositions threshold feeBps slipBps ts runId ranked ex).orders.length
      + (entryPass maxPositions threshold feeBps slipBps ts runId ranked ex).budget
    = ex.orders.length + ex.budget := by
  simp only [entryPass]
  split_ifs
  · rw [entryLoop_sum]
  · rfl

/-- The exit pass starts from an empty order list, so its
`orders.length + budget` equals the starting budget. -/
theorem exitPass_sum (mkt : List MarketRow) (feeBps slipBps : ℚ) (ts : String)
    (runId : ℤ) (cash : ℚ) (budget : ℕ) (positions : List (String × PaperPos)) :
    (exitPass mkt feeBps slipBps ts runId cash budget positions).orders.length
      + (exitPass mkt feeBps slipBps ts runId cash budget positions).budget
    = budget := by
  unfold exitPass
  rw [exitFold_sum]
  simp

/-- A ticker's market row comes from the market-state table. -/
theorem lookupLast_mem {mkt : List MarketRow} {t : String} {r : MarketRow}
    (h : lookupLast mkt t = some r) : r ∈ mkt := by
  unfold lookupLast at h
  exact List.mem_of_mem_filter (List.mem_of_getLast?_eq_some h)

/-- A sell adds non-negative net proceeds: the exit step keeps cash ≥ 0
when fees are at most 100% of gross, slippage at most 100%, and market
prices non-negative. -/
theorem exitStep_cash_nonneg (mkt : List MarketRow) (feeBps slipBps : ℚ)
    (ts : String) (runId : ℤ)
    (hfee0 : 0 ≤ feeBps) (hfee1 : feeBps ≤ 10000) (hslip1 : slipBps ≤ 10000)
    (hprices : ∀ r ∈ mkt, 0 ≤ r.price)
    (st : ExitState) (tp : String × PaperPos) (hc : 0 ≤ st.cash) :
    0 ≤ (exitStep mkt feeBps slipBps ts runId st tp).cash := by
  unfold exitStep
  repeat' split
  all_goals try exact hc
  rename_i hbudget row heq hsell hqty
  have hp : 0 ≤ row.price := hprices row (lookupLast_mem heq)
  have hslipfr : slipBps / 10000 ≤ 1 := (div_le_one (by norm_num)).mpr hslip1
  have he : 0 ≤ row.price * (1 - slipBps / 10000) := mul_nonneg hp (by linarith)
  have hq : 0 ≤ (tp.2.qty : ℚ) := by exact_mod_cast le_of_lt (lt_of_not_le hqty)
  have hg : 0 ≤ (tp.2.qty : ℚ) * (row.price * (1 - slipBps / 10000)) := mul_nonneg hq he
  have hfr : feeBps / 10000 ≤ 1 := (div_le_one (by norm_num)).mpr hfee1
  have hfee : (tp.2.qty : ℚ) * (row.price * (1 - slipBps / 10000)) * feeBps / 10000
      ≤ (tp.2.qty : ℚ) * (row.price * (1 - slipBps / 10000)) := by
    rw [mul_div_assoc]
    exact mul_le_of_le_one_right hg hfr
  dsimp only
  linarith

/-- The exit fold keeps cash non-negative. -/
theorem exitFold_cash_nonneg (mkt : List MarketRow) (feeBps slipBps : ℚ)
    (ts : String) (runId : ℤ)
    (hfee0 : 0 ≤ feeBps) (hfee1 : feeBps ≤ 10000) (hslip1 : slipBps ≤ 10000)
    (hprices : ∀ r ∈ mkt, 0 ≤ r.price)
    (l : List (String × PaperPos)) (st : ExitState) (hc : 0 ≤ st.cash) :
    0 ≤ (l.foldl (exitStep mkt feeBps slipBps ts runId) st).cash := by
  induction l generalizing st with
  | nil => exact hc
  | cons tp rest ih =>
    exact ih _ (exitStep_cash_nonneg mkt feeBps slipBps ts runId
      hfee0 hfee1 hslip1 hprices st tp hc)

/-- A buy only executes when its total cost fits in cash, so the entry step
keeps cash non-negative. -/
theorem buyStep_cash_nonneg (allocation feeBps slipBps threshold : ℚ)
    (ts : String) (runId : ℤ) (st : EntryState) (row : MarketRow)
    (hc : 0 ≤ st.cash) :
    0 ≤ (buyStep allocation feeBps slipBps threshold ts runId st row).cash := by
  unfold buyStep
  repeat' split
  all_goals try exact hc
  rename_i hheld hscore hqty hcost
  dsimp only
  linarith [not_lt.mp hcost]

/-- The entry loop keeps cash non-negative. -/
theorem entryLoop_cash_nonneg (allocation feeBps slipBps threshold : ℚ)
    (ts : String) (runId : ℤ) (l : List MarketRow) (st : EntryState)
    (hc : 0 ≤ st.cash) :
    0 ≤ (entryLoop allocation feeBps slipBps threshold ts runId st l).cash := by
  induction l generalizing st with
  | nil => exact hc
  | cons row rest ih =>
    unfold entryLoop
    split_ifs
    · exact hc
    · exact ih _ (buyStep_cash_nonneg allocation feeBps slipBps threshold ts runId st row hc)

/-- The entry pass keeps cash non-negative. -/
theorem entryPass_cash_nonneg (maxPositions : ℤ) (threshold feeBps slipBps : ℚ)
    (ts : String) (runId : ℤ) (ranked : List MarketRow) (ex : ExitState)
    (hc : 0 ≤ ex.cash) :
    0 ≤ (entryPass maxPositions threshold feeBps slipBps ts runId ranked ex).cash := by
  simp only [entryPass]
  split_ifs
  · exact entryLoop_cash_nonneg _ _ _ _ _ _ _ _ hc
  · exact hc

/-- The exit step only keeps positions that were already held. -/
theorem exitStep_kept_mem (mkt : List MarketRow) (feeBps slipBps : ℚ)
    (ts : String) (runId : ℤ) (st : ExitState) (tp : String × PaperPos) :
    ∀ x ∈ (exitStep mkt feeBps slipBps ts runId st tp).kept,
      x ∈ st.kept ∨ x = tp := by
  unfold exitStep
  repeat' split
  all_goals intro x hx
  all_goals dsimp only at hx
  all_goals try exact Or.inl hx
  all_goals rcases List.mem_append.mp hx with h | h
  all_goals first
    | exact Or.inl h
    | exact Or.inr (List.mem_singleton.mp h)

/-- Kept positions of the exit fold come from the initial kept list or the
iterated position list. -/
theorem exitFold_kept_mem (mkt : List MarketRow) (feeBps slipBps : ℚ)
    (ts : String) (runId : ℤ) (l : List (String × PaperPos)) (st : ExitState) :
    ∀ x ∈ (l.foldl (exitStep mkt feeBps slipBps ts runId) st).kept,
      x ∈ st.kept ∨ x ∈ l := by
  induction l generalizing st with
  | nil => exact fun x hx => Or.inl hx
  | cons tp rest ih =>
    intro x hx
    rcases ih (exitStep mkt feeBps slipBps ts runId st tp) x hx with h | h
    · rcases exitStep_kept_mem mkt feeBps slipBps ts runId st tp x h with h' | h'
      · exact Or.inl h'
      · exact Or.inr (h' ▸ List.mem_cons_self tp rest)
    · exact Or.inr (List.mem_cons_of_mem tp h)

/-- A buy step preserves strict positivity of all held quantities. -/
theorem buyStep_pos_qty (allocation feeBps slipBps threshold : ℚ)
    (ts : String) (runId : ℤ) (st : EntryState) (row : MarketRow)
    (hpos : ∀ x ∈ st.positions, 0 < x.2.qty) :
    ∀ x ∈ (buyStep allocation feeBps slipBps threshold ts runId st row).positions,
      0 < x.2.qty := by
  unfold buyStep
  repeat' split
  all_goals intro x hx
  all_goals try dsimp only at hx
  all_goals try exact hpos x hx
  rename_i hheld hscore hqty hcost
  rcases List.mem_append.mp hx with h | h
  · exact hpos x h
  · rw [List.mem_singleton.mp h]
    exact lt_of_not_le hqty

/-- The entry loop preserves strict positivity of all held quantities. -/
theorem entryLoop_pos_qty (allocation feeBps slipBps threshold : ℚ)
    (ts : String) (runId : ℤ) (l : List MarketRow) (st : EntryState)
    (hpos : ∀ x ∈ st.positions, 0 < x.2.qty) :
    ∀ x ∈ (entryLoop allocation feeBps slipBps threshold ts runId st l).positions,
      0 < x.2.qty := by
  induction l generalizing st with
  | nil => exact hpos
  | cons row rest ih =>
    unfold entryLoop
    split_ifs
    · exact hpos
    · exact ih _ (buyStep_pos_qty allocation feeBps slipBps threshold ts runId st row hpos)

/-- The entry pass preserves strict positivity of all held quantities. -/
theorem entryPass_pos_qty (maxPositions : ℤ) (threshold feeBps slipBps : ℚ)
    (ts : String) (runId : ℤ) (ranked : List MarketRow) (ex : ExitState)
    (hpos : ∀ x ∈ ex.kept, 0 < x.2.qty) :
    ∀ x ∈ (entryPass maxPositions threshold feeBps slipBps ts runId ranked ex).positions,
      0 < x.2.qty := by
  simp only [entryPass]
  split_ifs
  · exact entryLoop_pos_qty _ _ _ _ _ _ _ _ hpos
  · exact hpos

/-- Summing a list divided elementwise equals the sum divided. -/
theorem list_sum_div (l : List ℚ) (c : ℚ) :
    (l.map (fun x => x / c)).sum = l.sum / c := by
  induction l with
  | nil => simp
  | cons a t ih => simp [ih, add_div]

/-- A record at `t` is settled for row `r` and horizon `h`: whenever a value
is computed, a stored record exists that is materially identical. -/
def goodAt (env : OutcomeEnv) (t : List (OutcomeKey × OutcomeVal))
    (r : CandRow) (h : String) : Prop :=
  ∀ v, computedVal env r h = some v →
    ∃ prev, outcomesGet t (okey r h) = some prev
      ∧ |prev.ret - v.ret| < outcomeEps
      ∧ |prev.priceThen - v.priceThen| < outcomeEps
      ∧ |prev.priceLater - v.priceLater| < outcomeEps

/-- `find?` commutes with a filter that cannot drop matches. -/
theorem find?_filter_of_imp {α : Type} (l : List α) (p q : α → Bool)
    (h : ∀ x, p x = true → q x = true) : (l.filter q).find? p = l.find? p := by
  induction l with
  | nil => rfl
  | cons a tl ih =>
    by_cases hq : q a = true
    · rw [List.filter_cons_of_pos hq]
      by_cases hp : p a = true
      · rw [List.find?_cons_of_pos _ hp, List.find?_cons_of_pos _ hp]
      · rw [List.find?_cons_of_neg _ hp, List.find?_cons_of_neg _ hp, ih]
    · have hp : ¬ p a = true := fun hpa => hq (h a hpa)
      rw [List.filter_cons_of_neg hq, List.find?_cons_of_neg _ hp, ih]

/-- Reading back the upserted key yields the new value. -/
theorem outcomesGet_upsert_self (t : List (OutcomeKey × OutcomeVal))
    (k : OutcomeKey) (v : OutcomeVal) :
    outcomesGet (outcomesUpsert t k v) k = some v := by
  unfold outcomesGet outcomesUpsert
  rw [List.find?_append]
  have h1 : (t.filter (fun kv => ¬ kv.1 = k)).find? (fun kv => kv.1 = k) = none := by
    rw [List.find?_eq_none]
    intro x hx
    have hmem := List.mem_filter.mp hx
    simpa using hmem.2
  rw [h1]
  simp [List.find?]

/-- Upserting one key leaves every other key's read unchanged. -/
theorem outcomesGet_upsert_other (t : List (OutcomeKey × OutcomeVal))
    (k : OutcomeKey) (v : OutcomeVal) (k' : OutcomeKey) (hne : k' ≠ k) :
    outcomesGet (outcomesUpsert t k v) k' = outcomesGet t k' := by
  unfold outcomesGet outcomesUpsert
  rw [List.find?_append]
  rw [find?_filter_of_imp t _ _ (fun x hx => by
    simp only [decide_eq_true_eq] at hx
    simpa [hx] using hne)]
  have hpa : ¬ ((k, v) : OutcomeKey × OutcomeVal).1 = k' := fun h => hne h.symm
  have h2 : ([(k, v)] : List (OutcomeKey × OutcomeVal)).find? (fun kv => kv.1 = k') = none := by
    rw [List.find?_cons_of_neg _ (by simpa using hpa)]
    rfl
  rw [h2]
  cases t.find? (fun kv => kv.1 = k') <;> rfl

/-- A step with nothing to record changes nothing. -/
theorem fillStep_none (env : OutcomeEnv) (r : CandRow) (h : String)
    (st : List (OutcomeKey × OutcomeVal) × ℕ)
    (hcv : computedVal env r h = none) : fillStep env r h st = st := by
  unfold fillStep
  rw [hcv]

/-- A step at a settled record changes nothing. -/
theorem fillStep_good_id (env : OutcomeEnv) (r : CandRow) (h : String)
    (st : List (OutcomeKey × OutcomeVal) × ℕ) (hg : goodAt env st.1 r h) :
    fillStep env r h st = st := by
  unfold fillStep
  cases hcv : computedVal env r h with
  | none => rfl
  | some v =>
    obtain ⟨prev, hget, h1, h2, h3⟩ := hg v hcv
    dsimp only
    rw [hget]
    dsimp only
    rw [if_pos ⟨h1, h2, h3⟩]

/-- After a step, its own record is settled. -/
theorem fillStep_good_after (env : OutcomeEnv) (r : CandRow) (h : String)
    (st : List (OutcomeKey × OutcomeVal) × ℕ) :
    goodAt env (fillStep env r h st).1 r h := by
  have hclose : ∀ w : OutcomeVal, |w.ret - w.ret| < outcomeEps
      ∧ |w.priceThen - w.priceThen| < outcomeEps
      ∧ |w.priceLater - w.priceLater| < outcomeEps := by
    intro w
    refine ⟨?_, ?_, ?_⟩ <;> (rw [sub_self, abs_zero]; norm_num [outcomeEps])
  intro v hcv
  unfold fillStep
  rw [hcv]
  dsimp only
  cases hget : outcomesGet st.1 (okey r h) with
  | none =>
    dsimp only
    exact ⟨v, outcomesGet_upsert_self st.1 (okey r h) v, hclose v⟩
  | some prev =>
    dsimp only
    split_ifs with hc
    · exact ⟨prev, hget, hc⟩
    · exact ⟨v, outcomesGet_upsert_self st.1 (okey r h) v, hclose v⟩

/-- A step writes only its own key. -/
theorem fillStep_get_other (env : OutcomeEnv) (r : CandRow) (h : String)
    (st : List (OutcomeKey × OutcomeVal) × ℕ) (k' : OutcomeKey)
    (hne : k' ≠ okey r h) :
    outcomesGet (fillStep env r h st).1 k' = outcomesGet st.1 k' := by
  unfold fillStep
  repeat' split
  all_goals try rfl
  all_goals exact outcomesGet_upsert_other st.1 (okey r h) _ k' hne

/-- Settledness only depends on the read at the record's own key. -/
theorem goodAt_congr (env : OutcomeEnv) (r : CandRow) (h : String)
    {t t' : List (OutcomeKey × OutcomeVal)}
    (hsame : outcomesGet t' (okey r h) = outcomesGet t (okey r h))
    (hg : goodAt env t r h) : goodAt env t' r h := by
  intro v hcv
  obtain ⟨prev, hget, hc⟩ := hg v hcv
  exact ⟨prev, hsame.trans hget, hc⟩

/-- A step preserves settledness of any record whose key coincides only when
the row and horizon coincide. -/
theorem fillStep_preserves_good (env : OutcomeEnv) (r : CandRow) (h : String)
    (r' : CandRow) (h' : String) (st : List (OutcomeKey × OutcomeVal) × ℕ)
    (hkey : okey r' h' = okey r h → r' = r ∧ h' = h)
    (hg : goodAt env st.1 r' h') :
    goodAt env (fillStep env r h st).1 r' h' := by
  by_cases he : okey r' h' = okey r h
  · obtain ⟨hr, hh⟩ := hkey he
    subst hr
    subst hh
    exact fillStep_good_after env r' h' st
  · exact goodAt_congr env r' h' (fillStep_get_other env r h st _ he) hg

/-- The horizon fold preserves settledness of an unrelated record. -/
theorem horizonFold_preserves_good (env : OutcomeEnv) (r : CandRow)
    (r' : CandRow) (h' : String) (hs : List String)
    (st : List (OutcomeKey × OutcomeVal) × ℕ)
    (hkey : ∀ h ∈ hs, okey r' h' = okey r h → r' = r ∧ h' = h)
    (hg : goodAt env st.1 r' h') :
    goodAt env (hs.foldl (fun s h => fillStep env r h s) st).1 r' h' := by
  induction hs generalizing st with
  | nil => exact hg
  | cons h0 rest ih =>
    rw [List.foldl_cons]
    exact ih _ (fun h hh => hkey h (List.mem_cons_of_mem h0 hh))
      (fillStep_preserves_good env r h0 r' h' st
        (hkey h0 (List.mem_cons_self h0 rest)) hg)

/-- After the horizon fold, every processed horizon is settled. -/
theorem horizonFold_good (env : OutcomeEnv) (r : CandRow) (hs : List String)
    (st : List (OutcomeKey × OutcomeVal) × ℕ) :
    ∀ h ∈ hs, goodAt env (hs.foldl (fun s hh => fillStep env r hh s) st).1 r h := by
  induction hs generalizing st with
  | nil => intro h hh; exact absurd hh (List.not_mem_nil h)
  | cons h0 rest ih =>
    intro h hh
    rw [List.foldl_cons]
    rcases List.mem_cons.mp hh with rfl | hmem
    · exact horizonFold_preserves_good env r r h rest _
        (fun h2 _ hk => ⟨rfl, ((OutcomeKey.mk.injEq _ _ _ _ _ _).mp hk).2.2⟩)
        (fillStep_good_after env r h st)
    · exact ih _ h hmem

/-- A row step preserves settledness of records of a row it cannot collide
with. -/
theorem fillRow_preserves_good (env : OutcomeEnv)
    (st : List (OutcomeKey × OutcomeVal) × ℕ) (r : CandRow)
    (r' : CandRow) (h' : String)
    (hkey : r.runId = r'.runId → r.ticker = r'.ticker → r = r')
    (hg : goodAt env st.1 r' h') :
    goodAt env (fillRow env st r).1 r' h' := by
  unfold fillRow
  split_ifs
  · exact hg
  · refine horizonFold_preserves_good env r r' h' _ st (fun h _ hk => ?_) hg
    obtain ⟨h1, h2, h3⟩ := (OutcomeKey.mk.injEq _ _ _ _ _ _).mp hk
    exact ⟨(hkey h1.symm h2.symm).symm, h3⟩

/-- The row fold preserves settledness of records of a row consistent with
the fold's rows. -/
theorem fillFold_preserves_good (env : OutcomeEnv) (rows : List CandRow)
    (st : List (OutcomeKey × OutcomeVal) × ℕ) (r' : CandRow) (h' : String)
    (hkey : ∀ r ∈ rows, r.runId = r'.runId → r.ticker = r'.ticker → r = r')
    (hg : goodAt env st.1 r' h') :
    goodAt env (rows.foldl (fillRow env) st).1 r' h' := by
  induction rows generalizing st with
  | nil => exact hg
  | cons r0 rest ih =>
    rw [List.foldl_cons]
    exact ih _ (fun r hr => hkey r (List.mem_cons_of_mem r0 hr))
      (fillRow_preserves_good env st r0 r' h'
        (hkey r0 (List.mem_cons_self r0 rest)) hg)

/-- A processed row's horizons are settled after its own row step. -/
theorem fillRow_good (env : OutcomeEnv) (st : List (OutcomeKey × OutcomeVal) × ℕ)
    (r : CandRow) (hp : ¬ r.price ≤ 0) :
    ∀ h ∈ ["1h", "4h", "1d"], goodAt env (fillRow env st r).1 r h := by
  unfold fillRow
  rw [if_neg hp]
  exact horizonFold_good env r _ st

/-- After a full pass, every processed (row, horizon) record is settled. -/
theorem fillFold_good (env : OutcomeEnv) (rows : List CandRow)
    (st : List (OutcomeKey × OutcomeVal) × ℕ)
    (hcons : ∀ r ∈ rows, ∀ r' ∈ rows,
      r.runId = r'.runId → r.ticker = r'.ticker → r = r') :
    ∀ r ∈ rows, ¬ r.price ≤ 0 → ∀ h ∈ ["1h", "4h", "1d"],
      goodAt env (rows.foldl (fillRow env) st).1 r h := by
  induction rows generalizing st with
  | nil => intro r hr; exact absurd hr (List.not_mem_nil r)
  | cons r0 rest ih =>
    intro r hr hp h hh
    rw [List.foldl_cons]
    rcases List.mem_cons.mp hr with rfl | hmem
    · exact fillFold_preserves_good env rest _ r h
        (fun r2 hr2 ha hb => hcons r2 (List.mem_cons_of_mem _ hr2) r
          (List.mem_cons_self _ rest) ha hb)
        (fillRow_good env st r hp h hh)
    · exact ih _ (fun a ha b hb => hcons a (List.mem_cons_of_mem r0 ha) b
        (List.mem_cons_of_mem r0 hb)) r hmem hp h hh

/-- The horizon fold over settled records is the identity. -/
theorem horizonFold_id (env : OutcomeEnv) (r : CandRow) (hs : List String)
    (st : List (OutcomeKey × OutcomeVal) × ℕ)
    (hall : ∀ h ∈ hs, goodAt env st.1 r h) :
    hs.foldl (fun s h => fillStep env r h s) st = st := by
  induction hs with
  | nil => rfl
  | cons h0 rest ih =>
    rw [List.foldl_cons, fillStep_good_id env r h0 st (hall h0 (List.mem_cons_self h0 rest))]
    exact ih (fun h hh => hall h (List.mem_cons_of_mem h0 hh))

/-- A row step over settled records is the identity. -/
theorem fillRow_id (env : OutcomeEnv) (st : List (OutcomeKey × OutcomeVal) × ℕ)
    (r : CandRow)
    (hall : ¬ r.price ≤ 0 → ∀ h ∈ ["1h", "4h", "1d"], goodAt env st.1 r h) :
    fillRow env st r = st := by
  unfold fillRow
  split_ifs with hp
  · rfl
  · exact horizonFold_id env r _ st (hall hp)

/-- The row fold over settled records is the identity. -/
theorem fillFold_id (env : OutcomeEnv) (rows : List CandRow)
    (st : List (OutcomeKey × OutcomeVal) × ℕ)
    (hall : ∀ r ∈ rows, ¬ r.price ≤ 0 → ∀ h ∈ ["1h", "4h", "1d"],
      goodAt env st.1 r h) :
    rows.foldl (fillRow env) st = st := by
  induction rows with
  | nil => rfl
  | cons r0 rest ih =>
    rw [List.foldl_cons, fillRow_id env st r0 (hall r0 (List.mem_cons_self r0 rest))]
    exact ih (fun r hr => hall r (List.mem_cons_of_mem r0 hr))

/-! ## Claim theorems (weight store, sell rules) -/

/-- C1: the spec demands that `activate_new_weights` deactivate the old active
row and insert the new one transactionally — if the insert fails after the
deactivate, the store must be unchanged with the old row still the single
active one.  The code commits the two statements separately: at a concrete
store with one active row, a failed insert leaves the store changed and with
no active row at all. -/
theorem C1_code_bug :
    activate_new_weights true [⟨1, [("money_value_surge", 1)], true⟩]
        [("money_value_surge", 1/2), ("flow_score", 1/2)]
      ≠ [⟨1, [("money_value_surge", 1)], true⟩]
    ∧ activeRows (activate_new_weights true [⟨1, [("money_value_surge", 1)], true⟩]
        [("money_value_surge", 1/2), ("flow_score", 1/2)]) = [] := by
  decide

/-- C4 (counterexample): a market row with 1-bar return +6%, zero drawdown,
positive flow and high score triggers the simulator's take-profit sell, but
the live rule does not fire on it, so the live rule is not the simulator rule
extended by hard-stop/flow triggers. -/
theorem C4_counterexample :
    (simSellRule ⟨"005930", "n", 100, 0.06, 0, 1, 100⟩).1 = true
    ∧ (liveSellRule ⟨"005930", "n", 100, 0.06, 0, 1, 100⟩
        ⟨"005930", "n", 1, 100, 100, 100, 0, 0⟩).1 = false := by
  norm_num [simSellRule, liveSellRule]

/-- C4 (amended): the live sell rule fires exactly on: the simulator's
stop-loss trigger (1-bar return ≤ −3.5%), a stricter trend-break
(20-bar drawdown < −10% rather than the simulator's −9%), the live-only hard
stop (pnl ≤ −8%), the flow-reversal trigger, or the take-profit-fade triggers;
the simulator's +6% take-profit is not among its triggers. -/
theorem C4_amended (row : MarketRow) (pos : LivePos) :
    (liveSellRule row pos).1 = true ↔
      pos.pnlPct ≤ (-0.08 : ℚ)
      ∨ row.return1h ≤ (-0.035 : ℚ)
      ∨ row.drawdown20 < (-0.10 : ℚ)
      ∨ (row.flowScore < (-0.6 : ℚ) ∧ row.score < (45 : ℚ))
      ∨ ((0.07 : ℚ) ≤ row.return1h ∧ row.flowScore < 0)
      ∨ ((0.12 : ℚ) ≤ pos.pnlPct ∧ row.flowScore < (0.2 : ℚ)) := by
  unfold liveSellRule
  repeat' split
  all_goals simp_all

/-- C8 (counterexample): with `day_return = -0.02` and
`live_risk_off_day_loss_pct = 0.015` the overlay mode is defensive, but the
effective threshold need not be base + 5: when the cash ratio sits below 70%
of the target reserve the cash penalty adds another +2 (here: cash 0, reserve
10%, base 50 gives threshold 57, not 55). -/
theorem C8_counterexample :
    (buildRiskOverlay ⟨0.015, 0.10, 0.01, 0.10⟩ 50 [] 1000 0 0 (-0.02) 0 0 0).mode
        = "defensive"
    ∧ (buildRiskOverlay ⟨0.015, 0.10, 0.01, 0.10⟩ 50 [] 1000 0 0 (-0.02) 0 0 0).effectiveThreshold
        = 57 := by
  norm_num [buildRiskOverlay, failRateOf, cashRatioOf, clampQ, abs_of_pos]

/-- C8 (amended): with `day_return = -0.02` and
`live_risk_off_day_loss_pct = 0.015` the risk mode is `"defensive"`, and —
provided the fail-rate penalty does not trigger, the cash ratio is at least
70% of the target reserve, and the base threshold is at least 35 — the
effective entry threshold equals base + 5 clamped to at most 95. -/
theorem C8_amended (s : LiveRiskSettings) (base : ℚ) (ps : List LivePos)
    (totalAsset cash totalEval dd : ℚ) (failedN totalN : ℕ)
    (hloss : s.liveRiskOffDayLossPct = (0.015 : ℚ))
    (hbase : (35 : ℚ) ≤ base)
    (hfail : ¬(3 ≤ totalN ∧ (0.60 : ℚ) ≤ failRateOf failedN totalN))
    (hcash : s.liveCashReservePct * (0.70 : ℚ) ≤ cashRatioOf cash totalAsset) :
    (buildRiskOverlay s base ps totalAsset cash totalEval (-0.02) dd failedN totalN).mode
        = "defensive"
    ∧ (buildRiskOverlay s base ps totalAsset cash totalEval (-0.02) dd failedN totalN).effectiveThreshold
        = min (base + 5) 95 := by
  have hro1 : (-0.02 : ℚ) ≤ -|s.liveRiskOffDayLossPct| := by
    rw [hloss]; norm_num [abs_of_pos]
  simp only [buildRiskOverlay]
  split_ifs
  all_goals try exact absurd (by assumption) (not_lt.mpr hcash)
  all_goals try
    (refine ⟨rfl, ?_⟩
     show max 40 (min 95 (base + 5)) = min (base + 5) 95
     rw [min_comm]
     exact max_eq_right (le_min (by linarith) (by norm_num)))
  all_goals exact absurd (Or.inl hro1) (by assumption)

/-- C8 witness: the amended scenario at a concrete input. -/
theorem C8_witness :
    (buildRiskOverlay ⟨0.015, 0.10, 0.01, 0.10⟩ 50 [] 1000 1000 0 (-0.02) 0 0 0).mode
        = "defensive"
    ∧ (buildRiskOverlay ⟨0.015, 0.10, 0.01, 0.10⟩ 50 [] 1000 1000 0 (-0.02) 0 0 0).effectiveThreshold
        = min (50 + 5) 95 :=
  C8_amended ⟨0.015, 0.10, 0.01, 0.10⟩ 50 [] 1000 1000 0 0 0 0 rfl
    (by norm_num) (by simp) (by norm_num [cashRatioOf])

/-- C5: given a base vector with non-negative components (the WeightVector
data-model invariant), a tuner run with status "ON" activates a vector whose
components are all ≥ 0 and sum to exactly 1; and whenever the gates pass but
the pre-normalization sum is non-positive, the run returns the base weights
unchanged with status "OFF(invalid-sum)" and activates nothing. -/
theorem C5_tuner_invariant (nDays nSamples : ℕ) (base : List (String × ℚ))
    (sig : String → Option ℚ) (maxDelta : ℚ) (minSamples warmupDays : ℕ)
    (hbase : ∀ kv ∈ base, 0 ≤ kv.2) :
    ((tune_weights nDays nSamples base sig maxDelta minSamples warmupDays).status = "ON" →
      (∀ kv ∈ (tune_weights nDays nSamples base sig maxDelta minSamples warmupDays).weights,
          0 ≤ kv.2)
      ∧ ((tune_weights nDays nSamples base sig maxDelta minSamples warmupDays).weights.map
          (·.2)).sum = 1
      ∧ (tune_weights nDays nSamples base sig maxDelta minSamples warmupDays).activated = true)
    ∧ (warmupDays ≤ nDays → minSamples ≤ nSamples → 0 < nSamples →
        ((updatedWeights base sig maxDelta).map (·.2)).sum ≤ 0 →
        tune_weights nDays nSamples base sig maxDelta minSamples warmupDays
          = ⟨base, "OFF(invalid-sum)", false⟩) := by
  have hupd : ∀ kv ∈ updatedWeights base sig maxDelta, 0 ≤ kv.2 := by
    intro kv hkv
    simp only [updatedWeights, List.mem_map] at hkv
    obtain ⟨ab, hab, hmap⟩ := hkv
    cases hsig : sig ab.1 with
    | none => rw [hsig] at hmap; exact hmap ▸ hbase ab hab
    | some v =>
      rw [hsig] at hmap
      rw [← hmap]
      exact le_max_left 0 _
  unfold tune_weights
  split_ifs with h1 h2 h3 h4
  · exact ⟨fun hst => absurd hst (status_ne_on "OFF(warmup<" _ "d)" (by decide)),
      fun hw _ _ _ => absurd h1 (not_lt.mpr hw)⟩
  · exact ⟨fun hst => absurd hst (status_ne_on "OFF(sample<" _ ")" (by decide)),
      fun _ hs _ _ => absurd h2 (not_lt.mpr hs)⟩
  · exact ⟨fun hst => by simp at hst, fun _ _ hn _ => absurd h3 (Nat.pos_iff_ne_zero.mp hn)⟩
  · exact ⟨fun hst => by simp at hst, fun _ _ _ _ => rfl⟩
  · refine ⟨fun _ => ⟨?_, ?_, rfl⟩, fun _ _ _ hsum => absurd hsum h4⟩
    · intro kv hkv
      simp only [List.mem_map] at hkv
      obtain ⟨ab, hab, hmap⟩ := hkv
      rw [← hmap]
      exact div_nonneg (hupd ab hab) (le_of_lt (lt_of_not_le h4))
    · have hmm :
          ((updatedWeights base sig maxDelta).map
              (fun kv => (kv.1, kv.2 / ((updatedWeights base sig maxDelta).map (·.2)).sum))).map
            (·.2)
          = ((updatedWeights base sig maxDelta).map (·.2)).map
              (fun x => x / ((updatedWeights base sig maxDelta).map (·.2)).sum) := by
        simp [List.map_map]
      rw [hmm, list_sum_div]
      exact div_self (ne_of_gt (lt_of_not_le h4))

/-- C5 witness: a concrete successful run. -/
theorem C5_witness :
    ((tune_weights 14 60 [("money_value_surge", 1)] (fun _ => none) 0.03 60 14).status = "ON" →
      (∀ kv ∈ (tune_weights 14 60 [("money_value_surge", 1)] (fun _ => none) 0.03 60 14).weights,
          0 ≤ kv.2)
      ∧ ((tune_weights 14 60 [("money_value_surge", 1)] (fun _ => none) 0.03 60 14).weights.map
          (·.2)).sum = 1
      ∧ (tune_weights 14 60 [("money_value_surge", 1)] (fun _ => none) 0.03 60 14).activated
          = true)
    ∧ (14 ≤ 14 → 60 ≤ 60 → 0 < 60 →
        ((updatedWeights [("money_value_surge", 1)] (fun _ => none) 0.03).map (·.2)).sum ≤ 0 →
        tune_weights 14 60 [("money_value_surge", 1)] (fun _ => none) 0.03 60 14
          = ⟨[("money_value_surge", 1)], "OFF(invalid-sum)", false⟩) :=
  C5_tuner_invariant 14 60 [("money_value_surge", 1)] (fun _ => none) 0.03 60 14
    (by intro kv hkv; simp at hkv; rw [hkv]; decide)

/-- C7: for every weight mapping, (a) the scored output of `score_candidates`
is permutation-invariant in the feature-table row order, and (b) the score of
a row is monotonically non-decreasing in any single feature varied within its
clip range, the other features held fixed, whenever that feature's weight is
positive. -/
theorem C7_score_properties (w : String → ℚ) :
    (∀ rows₁ rows₂ : List (String → Option ℚ), rows₁.Perm rows₂ →
      (score_candidates w rows₁).Perm (score_candidates w rows₂))
    ∧ (∀ (r₁ r₂ : String → Option ℚ) (key nk : String) (lo hi x y : ℚ),
        (key, lo, hi, nk) ∈ SCORE_SCALE_MAP → 0 < w key →
        r₁ key = some x → r₂ key = some y →
        lo ≤ x → x ≤ y → y ≤ hi →
        (∀ k, k ≠ key → r₁ k = r₂ k) →
        scoreRow w r₁ ≤ scoreRow w r₂) := by
  constructor
  · intro l₁ l₂ hperm
    exact (sortDesc_perm _).trans ((hperm.map _).trans (sortDesc_perm _).symm)
  · intro r₁ r₂ key nk lo hi x y _hmem hw h1 h2 _hlox hxy _hyhi hother
    apply round2_mono
    apply mul_le_mul_of_nonneg_right _ (by norm_num : (0:ℚ) ≤ 100)
    unfold rawScore
    apply List.sum_le_sum
    intro e _he
    by_cases hek : e.1 = key
    · rw [hek]
      simp only [normFeature, h1, h2]
      exact mul_le_mul_of_nonneg_left (clipScale_mono _ _ hxy) (le_of_lt hw)
    · have hsame := hother e.1 hek
      simp only [normFeature, hsame]
      exact le_refl _

/-- C7 witness: both parts at a concrete weight map and concrete rows. -/
theorem C7_witness :
    (score_candidates (fun _ => 1)
        [fun k => if k = "money_value_surge" then some 1 else none,
         fun k => if k = "money_value_surge" then some 2 else none]).Perm
      (score_candidates (fun _ => 1)
        [fun k => if k = "money_value_surge" then some 2 else none,
         fun k => if k = "money_value_surge" then some 1 else none])
    ∧ scoreRow (fun _ => 1) (fun k => if k = "money_value_surge" then some 1 else none)
        ≤ scoreRow (fun _ => 1) (fun k => if k = "money_value_surge" then some 2 else none) := by
  obtain ⟨hperm, hmono⟩ := C7_score_properties (fun _ => 1)
  refine ⟨hperm _ _ (List.Perm.swap _ _ _), ?_⟩
  exact hmono _ _ "money_value_surge" "f_money" 0.8 3.0 1 2
    (List.mem_cons_self _ _) (by norm_num)
    (by simp) (by simp) (by norm_num) (by norm_num) (by norm_num)
    (fun k hk => by simp [hk])

/-- C2: a paper-trading cycle writes at most
`max(0, max_trades_per_day − trades_already_today)` orders, and when today's
order count already meets the daily limit it writes nothing but the single
mark-to-market `paper_accounts` row. -/
theorem C2_daily_budget (runId : ℤ) (ts : String)
    (rankedEntries marketState : List MarketRow)
    (fallback : List (String × ℚ)) (latestCash initialCash : ℚ)
    (tradesToday : ℕ) (maxTradesPerDay maxPositions : ℤ)
    (entryScoreThreshold feeBps slipBps : ℚ)
    (positions0 : List (String × PaperPos)) :
    ((run_paper_trading runId ts rankedEntries marketState fallback latestCash
        initialCash tradesToday maxTradesPerDay maxPositions entryScoreThreshold
        feeBps slipBps positions0).ordersCount : ℤ)
      ≤ max 0 (maxTradesPerDay - (tradesToday : ℤ))
    ∧ (maxTradesPerDay ≤ (tradesToday : ℤ) →
        (run_paper_trading runId ts rankedEntries marketState fallback latestCash
          initialCash tradesToday maxTradesPerDay maxPositions entryScoreThreshold
          feeBps slipBps positions0).ordersCount = 0
        ∧ (run_paper_trading runId ts rankedEntries marketState fallback latestCash
            initialCash tradesToday maxTradesPerDay maxPositions entryScoreThreshold
            feeBps slipBps positions0).writes
          = [DbWrite.insertAccount ⟨ts, startCash latestCash initialCash tradesToday,
              markToMarket (startCash latestCash initialCash tradesToday) positions0
                (priceMapGet marketState fallback),
              "paper-run:" ++ toString runId ++ ":limit-reached"⟩]) := by
  simp only [run_paper_trading]
  split_ifs with hb ho
  · refine ⟨?_, fun _ => ⟨rfl, rfl⟩⟩
    dsimp only
    exact_mod_cast le_max_left 0 _
  all_goals
    have hsum := entryPass_sum maxPositions entryScoreThreshold feeBps slipBps ts runId
      rankedEntries (exitPass marketState feeBps slipBps ts runId
        (startCash latestCash initialCash tradesToday)
        ((maxTradesPerDay - (tradesToday : ℤ)).toNat) positions0)
    rw [exitPass_sum] at hsum
    refine ⟨?_, fun h => absurd (Int.toNat_of_nonpos (by omega)) hb⟩
    dsimp only
    omega

/-- C2 witness: a cycle at the daily limit. -/
theorem C2_witness :
    ((run_paper_trading 1 "t" [] [] [] 100 1000000 5 5 3 55 10 5 []).ordersCount : ℤ)
      ≤ max 0 ((5 : ℤ) - ((5 : ℕ) : ℤ))
    ∧ (run_paper_trading 1 "t" [] [] [] 100 1000000 5 5 3 55 10 5 []).ordersCount = 0
    ∧ (run_paper_trading 1 "t" [] [] [] 100 1000000 5 5 3 55 10 5 []).writes
      = [DbWrite.insertAccount ⟨"t", startCash 100 1000000 5,
          markToMarket (startCash 100 1000000 5) [] (priceMapGet [] []),
          "paper-run:" ++ toString (1 : ℤ) ++ ":limit-reached"⟩] := by
  obtain ⟨h1, h2⟩ := C2_daily_budget 1 "t" [] [] [] 100 1000000 5 5 3 55 10 5 []
  exact ⟨h1, (h2 (by norm_num)).1, (h2 (by norm_num)).2⟩

/-- C10: every invocation appends exactly one `paper_accounts` row, and on
the limit-reached path the account row is the only write: no orders are
inserted and the positions table is not replaced. -/
theorem C10_single_account_write (runId : ℤ) (ts : String)
    (rankedEntries marketState : List MarketRow)
    (fallback : List (String × ℚ)) (latestCash initialCash : ℚ)
    (tradesToday : ℕ) (maxTradesPerDay maxPositions : ℤ)
    (entryScoreThreshold feeBps slipBps : ℚ)
    (positions0 : List (String × PaperPos)) :
    ((run_paper_trading runId ts rankedEntries marketState fallback latestCash
        initialCash tradesToday maxTradesPerDay maxPositions entryScoreThreshold
        feeBps slipBps positions0).writes.filter isInsertAccount).length = 1
    ∧ (maxTradesPerDay ≤ (tradesToday : ℤ) →
        (∀ os, DbWrite.insertOrders os ∉
          (run_paper_trading runId ts rankedEntries marketState fallback latestCash
            initialCash tradesToday maxTradesPerDay maxPositions entryScoreThreshold
            feeBps slipBps positions0).writes)
        ∧ (∀ rows, DbWrite.replacePositions rows ∉
            (run_paper_trading runId ts rankedEntries marketState fallback latestCash
              initialCash tradesToday maxTradesPerDay maxPositions entryScoreThreshold
              feeBps slipBps positions0).writes)) := by
  simp only [run_paper_trading]
  split_ifs with hb ho
  · refine ⟨by simp [isInsertAccount], fun _ => ⟨fun os => ?_, fun rows => ?_⟩⟩
    · simp
    · simp
  all_goals
    refine ⟨by simp [isInsertAccount], fun h => absurd (Int.toNat_of_nonpos (by omega)) hb⟩

/-- C9: with fee and slippage rates between 0 and 100% and non-negative
market prices, cash stays non-negative across every individual sell step and
buy step, and a cycle started from non-negative cash persists a non-negative
cash balance. -/
theorem C9_cash_nonneg (runId : ℤ) (ts : String)
    (rankedEntries marketState : List MarketRow)
    (fallback : List (String × ℚ)) (latestCash initialCash : ℚ)
    (tradesToday : ℕ) (maxTradesPerDay maxPositions : ℤ)
    (entryScoreThreshold feeBps slipBps : ℚ)
    (positions0 : List (String × PaperPos))
    (hfee0 : 0 ≤ feeBps) (hfee1 : feeBps ≤ 10000)
    (hslip0 : 0 ≤ slipBps) (hslip1 : slipBps ≤ 10000)
    (hprices : ∀ r ∈ marketState, 0 ≤ r.price)
    (hstart : 0 ≤ startCash latestCash initialCash tradesToday) :
    (∀ (st : ExitState) (tp : String × PaperPos), 0 ≤ st.cash →
        0 ≤ (exitStep marketState feeBps slipBps ts runId st tp).cash)
    ∧ (∀ (allocation : ℚ) (st : EntryState) (row : MarketRow), 0 ≤ st.cash →
        0 ≤ (buyStep allocation feeBps slipBps entryScoreThreshold ts runId st row).cash)
    ∧ 0 ≤ (run_paper_trading runId ts rankedEntries marketState fallback latestCash
        initialCash tradesToday maxTradesPerDay maxPositions entryScoreThreshold
        feeBps slipBps positions0).cash := by
  refine ⟨fun st tp hc => exitStep_cash_nonneg marketState feeBps slipBps ts runId
      hfee0 hfee1 hslip1 hprices st tp hc,
    fun allocation st row hc => buyStep_cash_nonneg allocation feeBps slipBps
      entryScoreThreshold ts runId st row hc, ?_⟩
  simp only [run_paper_trading]
  split_ifs with hb ho
  · exact hstart
  all_goals
    exact entryPass_cash_nonneg _ _ _ _ _ _ _ _
      (exitFold_cash_nonneg marketState feeBps slipBps ts runId hfee0 hfee1 hslip1
        hprices positions0 _ hstart)

/-- C3: (a) every executed buy decreases cash by exactly
`qty × exec_price + fee` with `exec_price = price × (1 + slippage_bps/10000)`
and `fee = qty × exec_price × fee_bps/10000`; (b) with the loaded positions
all of positive quantity, the persisted account row satisfies
`nav = cash + Σ qty × mark_price` over the persisted positions, the mark
price resolved from the price map with average-cost fallback. -/
theorem C3_ledger_conservation (runId : ℤ) (ts : String)
    (rankedEntries marketState : List MarketRow)
    (fallback : List (String × ℚ)) (latestCash initialCash : ℚ)
    (tradesToday : ℕ) (maxTradesPerDay maxPositions : ℤ)
    (entryScoreThreshold feeBps slipBps : ℚ)
    (positions0 : List (String × PaperPos))
    (hpos0 : ∀ tp ∈ positions0, 0 < tp.2.qty) :
    (∀ (allocation : ℚ) (st : EntryState) (row : MarketRow) (o : PaperOrder),
        (buyStep allocation feeBps slipBps entryScoreThreshold ts runId st row).orders
            = st.orders ++ [o] →
        (buyStep allocation feeBps slipBps entryScoreThreshold ts runId st row).cash
            = st.cash - ((o.qty : ℚ) * o.price + o.fee)
        ∧ o.price = row.price * (1 + slipBps / 10000)
        ∧ o.fee = (o.qty : ℚ) * o.price * feeBps / 10000)
    ∧ (∀ rows, DbWrite.replacePositions rows ∈
          (run_paper_trading runId ts rankedEntries marketState fallback latestCash
            initialCash tradesToday maxTradesPerDay maxPositions entryScoreThreshold
            feeBps slipBps positions0).writes →
        (run_paper_trading runId ts rankedEntries marketState fallback latestCash
            initialCash tradesToday maxTradesPerDay maxPositions entryScoreThreshold
            feeBps slipBps positions0).nav
          = (run_paper_trading runId ts rankedEntries marketState fallback latestCash
              initialCash tradesToday maxTradesPerDay maxPositions entryScoreThreshold
              feeBps slipBps positions0).cash
            + (rows.map (fun tp =>
                (match priceMapGet marketState fallback tp.1 with
                 | some p => p
                 | none => tp.2.avgPrice) * (tp.2.qty : ℚ))).sum) := by
  constructor
  · intro allocation st row o horders
    unfold buyStep at horders ⊢
    split_ifs at horders ⊢ with h1 h2 h3 h4
    all_goals try (exfalso; simp at horders; done)
    have ho : o = ⟨ts, "BUY", row.ticker, row.name,
        ⌊allocation / (row.price * (1 + slipBps / 10000))⌋,
        row.price * (1 + slipBps / 10000), "top-score-entry",
        (⌊allocation / (row.price * (1 + slipBps / 10000))⌋ : ℚ)
          * (row.price * (1 + slipBps / 10000)) * feeBps / 10000, runId⟩ := by
      have h := List.append_cancel_left horders
      simpa using h.symm
    rw [ho]
    exact ⟨rfl, rfl, rfl⟩
  · have hkept : ∀ x ∈ (exitPass marketState feeBps slipBps ts runId
        (startCash latestCash initialCash tradesToday)
        ((maxTradesPerDay - (tradesToday : ℤ)).toNat) positions0).kept, 0 < x.2.qty := by
      intro x hx
      rcases exitFold_kept_mem marketState feeBps slipBps ts runId positions0 _ x hx with h | h
      · simp at h
      · exact hpos0 x h
    have hall : ∀ x ∈ (entryPass maxPositions entryScoreThreshold feeBps slipBps ts runId
        rankedEntries (exitPass marketState feeBps slipBps ts runId
          (startCash latestCash initialCash tradesToday)
          ((maxTradesPerDay - (tradesToday : ℤ)).toNat) positions0)).positions,
        0 < x.2.qty :=
      entryPass_pos_qty maxPositions entryScoreThreshold feeBps slipBps ts runId
        rankedEntries _ hkept
    intro rows hmem
    simp only [run_paper_trading] at hmem ⊢
    split_ifs at hmem ⊢ with hb ho
    · simp at hmem
    all_goals
      simp only [List.nil_append, List.cons_append, List.mem_cons, List.not_mem_nil,
        or_false, false_or, reduceCtorEq, DbWrite.replacePositions.injEq] at hmem
      subst hmem
      dsimp only
      rw [List.filter_eq_self.mpr (fun a ha => decide_eq_true (hall a ha))]
      rfl

/-- C3 witness: a concrete executed buy (zero fee and slippage for clean
numbers) and a concrete cycle's persisted NAV equation. -/
theorem C3_witness :
    ((buyStep 100 0 0 55 "t" 1 ⟨100, [], [], 2, 3⟩ ⟨"A", "A", 10, 0, 0, 0, 60⟩).cash
        = (100 : ℚ) - ((((10 : ℤ) : ℚ)) * (10 * (1 + 0 / 10000))
            + ((10 : ℤ) : ℚ) * (10 * (1 + 0 / 10000)) * 0 / 10000)
      ∧ (10 : ℚ) * (1 + 0 / 10000) = 10 * (1 + (0 : ℚ) / 10000)
      ∧ ((10 : ℤ) : ℚ) * (10 * (1 + 0 / 10000)) * 0 / 10000
          = ((10 : ℤ) : ℚ) * (10 * (1 + (0 : ℚ) / 10000)) * 0 / 10000)
    ∧ ((run_paper_trading 1 "t" [] [] [] 100 1000000 0 5 3 55 0 0 []).nav
        = (run_paper_trading 1 "t" [] [] [] 100 1000000 0 5 3 55 0 0 []).cash
          + (([] : List (String × PaperPos)).map (fun tp =>
              (match priceMapGet [] [] tp.1 with
               | some p => p
               | none => tp.2.avgPrice) * (tp.2.qty : ℚ))).sum) := by
  obtain ⟨ha, hb⟩ := C3_ledger_conservation 1 "t" [] [] [] 100 1000000 0 5 3 55 0 0 []
    (by simp)
  constructor
  · exact ha 100 ⟨100, [], [], 2, 3⟩ ⟨"A", "A", 10, 0, 0, 0, 60⟩
      ⟨"t", "BUY", "A", "A", 10, 10 * (1 + 0 / 10000), "top-score-entry",
        ((10 : ℤ) : ℚ) * (10 * (1 + 0 / 10000)) * 0 / 10000, 1⟩
      (by norm_num [buyStep])
  · exact hb []
      (by norm_num [run_paper_trading, entryPass, exitPass, entryLoop, startCash])

/-- C6: over unchanged runs/candidates/price snapshots (the environment),
the same fallback map and eligibility, and candidate rows whose (run, ticker)
key determines the row, a second `fill_outcomes` call performs zero writes:
it returns 0 and leaves the outcomes table exactly as the first call left
it. -/
theorem C6_outcome_idempotent (env : OutcomeEnv) (rows : List CandRow)
    (outcomes0 : List (OutcomeKey × OutcomeVal))
    (hcons : ∀ r ∈ rows, ∀ r' ∈ rows,
      r.runId = r'.runId → r.ticker = r'.ticker → r = r') :
    (fill_outcomes env rows (fill_outcomes env rows outcomes0).1).2 = 0
    ∧ (fill_outcomes env rows (fill_outcomes env rows outcomes0).1).1
        = (fill_outcomes env rows outcomes0).1 := by
  have hid : fill_outcomes env rows (fill_outcomes env rows outcomes0).1
      = ((fill_outcomes env rows outcomes0).1, 0) := by
    unfold fill_outcomes
    exact fillFold_id env rows _ (fun r hr hp h hh =>
      fillFold_good env rows (outcomes0, 0) hcons r hr hp h hh)
  rw [hid]
  exact ⟨rfl, rfl⟩

/-- C6 witness: a concrete environment and candidate row. -/
theorem C6_witness :
    (fill_outcomes ⟨fun _ _ => true, fun _ _ => some 110, []⟩
        [⟨1, "2024-01-02T10:00:00", "A", 100⟩]
        (fill_outcomes ⟨fun _ _ => true, fun _ _ => some 110, []⟩
          [⟨1, "2024-01-02T10:00:00", "A", 100⟩] []).1).2 = 0
    ∧ (fill_outcomes ⟨fun _ _ => true, fun _ _ => some 110, []⟩
        [⟨1, "2024-01-02T10:00:00", "A", 100⟩]
        (fill_outcomes ⟨fun _ _ => true, fun _ _ => some 110, []⟩
          [⟨1, "2024-01-02T10:00:00", "A", 100⟩] []).1).1
      = (fill_outcomes ⟨fun _ _ => true, fun _ _ => some 110, []⟩
          [⟨1, "2024-01-02T10:00:00", "A", 100⟩] []).1 :=
  C6_outcome_idempotent ⟨fun _ _ => true, fun _ _ => some 110, []⟩
    [⟨1, "2024-01-02T10:00:00", "A", 100⟩] []
    (by
      intro r hr r' hr' _ _
      rw [List.mem_singleton] at hr hr'
      rw [hr, hr'])

/-- C9 witness: a concrete sell, a concrete buy, and a concrete cycle. -/
theorem C9_witness :
    0 ≤ (exitStep [⟨"A", "A", 50, -0.04, 0, 0, 60⟩] 10 5 "t" 1
        ⟨100, [], [], 3⟩ ("A", ⟨"A", 2, 50⟩)).cash
    ∧ 0 ≤ (buyStep 100 10 5 55 "t" 1 ⟨100, [], [], 2, 3⟩ ⟨"A", "A", 10, 0, 0, 0, 60⟩).cash
    ∧ 0 ≤ (run_paper_trading 1 "t" [] [⟨"A", "A", 50, -0.04, 0, 0, 60⟩] [] 100 1000000
        0 5 3 55 10 5 [("A", ⟨"A", 2, 50⟩)]).cash := by
  obtain ⟨ha, hb, hc⟩ := C9_cash_nonneg 1 "t" [] [⟨"A", "A", 50, -0.04, 0, 0, 60⟩] [] 100
    1000000 0 5 3 55 10 5 [("A", ⟨"A", 2, 50⟩)]
    (by norm_num) (by norm_num) (by norm_num) (by norm_num)
    (by intro r hr; simp at hr; rw [hr]; norm_num)
    (by norm_num [startCash])
  exact ⟨ha _ _ (by norm_num), hb _ _ _ (by norm_num), hc⟩

/-- C10 witness: the limit-reached path at a concrete input. -/
theorem C10_witness :
    ((run_paper_trading 1 "t" [] [] [] 100 1000000 5 5 3 55 10 5 []).writes.filter
        isInsertAccount).length = 1
    ∧ (∀ os, DbWrite.insertOrders os ∉
        (run_paper_trading 1 "t" [] [] [] 100 1000000 5 5 3 55 10 5 []).writes)
    ∧ (∀ rows, DbWrite.replacePositions rows ∉
        (run_paper_trading 1 "t" [] [] [] 100 1000000 5 5 3 55 10 5 []).writes) := by
  obtain ⟨h1, h2⟩ := C10_single_account_write 1 "t" [] [] [] 100 1000000 5 5 3 55 10 5 []
  exact ⟨h1, (h2 (by norm_num)).1, (h2 (by norm_num)).2⟩

end MoneyBot
